import Mathlib

/-!
Verification development for the RAG chatbot prototype.

Shallow embedding of the core pipeline: text cleaning and chunking
(src/utils/text_utils.py), the FAISS-backed vector store
(src/services/vector_service.py), the retry-wrapped provider client
(src/utils/openai_utils.py), the RAG orchestrator
(src/services/rag_service.py) and the conversation manager
(src/services/chat_service.py, src/models/conversation.py).

Conventions: Python strings are `List Char`; Python ints are `ℕ` (all the
quantities involved are non-negative); floats are `ℚ` (every claim settled
here is about comparisons, counts and control flow, not rounding); Python
dicts are association lists whose lookup returns the most recently inserted
binding; fallible calls return `Except`/`Option`. External collaborators
(the FAISS index search and the OpenAI network calls) enter as explicit
parameters constrained by their documented contracts.
-/

set_option maxHeartbeats 1000000
set_option linter.unusedVariables false

namespace RagChatbot

/-! ### text_utils.clean_text (lines 9-23) -/

/-- Python regex class \s over the ASCII range, also the character set
stripped by str.strip: the whitespace test used throughout clean_text. -/
def isWs (c : Char) : Bool :=
  c = ' ' || c = '\t' || c = '\n' || c = '\r' || c = '\x0b' || c = '\x0c'

/-- Worker for collapseWs: inWs records whether the previous character was
whitespace, so that only the first character of each whitespace run emits the
single replacement space. -/
def collapseWsAux : Bool → List Char → List Char
  | _, [] => []
  | inWs, c :: rest =>
    if isWs c then
      if inWs then collapseWsAux true rest
      else ' ' :: collapseWsAux true rest
    else c :: collapseWsAux false rest

/-- Step 1 of clean_text: re.sub(r'\s+', ' ', text) — every maximal run of
whitespace becomes a single space. -/
def collapseWs (l : List Char) : List Char := collapseWsAux false l

/-- Length of the match of the Python pattern "--- Page \d+ ---\n?" at the
head of l, if the pattern matches there: the 9-character literal prefix, a
maximal nonempty digit run, the 4-character literal " ---" and an optional
newline. Digits cannot overlap the following space, so the greedy \d+ never
backtracks. -/
def markerLen (l : List Char) : Option ℕ :=
  if l.take 9 = ("--- Page ").toList then
    if ((l.drop 9).takeWhile Char.isDigit) = [] then none
    else if ((l.drop 9).dropWhile Char.isDigit).take 4 = (" ---").toList then
      some (9 + ((l.drop 9).takeWhile Char.isDigit).length + 4 +
        (if (((l.drop 9).dropWhile Char.isDigit).drop 4).head? = some '\n' then 1 else 0))
    else none
  else none

/-- Worker for removeMarkers: each step consumes at least one character
(markerLen is positive when it matches), so fuel equal to the remaining
length always reaches the end of the text. -/
def removeMarkersAux : ℕ → List Char → List Char
  | 0, _ => []
  | _, [] => []
  | fuel + 1, c :: rest =>
    match markerLen (c :: rest) with
    | some n => removeMarkersAux fuel ((c :: rest).drop n)
    | none => c :: removeMarkersAux fuel rest

/-- Step 2 of clean_text: re.sub(r'--- Page \d+ ---\n?', '', text) — delete
every leftmost non-overlapping page-marker match, scanning left to right. -/
def removeMarkers (l : List Char) : List Char := removeMarkersAux l.length l

/-- Worker for collapseNewlines: k counts the consecutive newlines seen
immediately before the current character. A newline is kept while it is among
the first two of its run and dropped from the third on, which is exactly the
effect of replacing each maximal run of 3 or more newlines by two. -/
def collapseNlAux : ℕ → List Char → List Char
  | _, [] => []
  | k, c :: rest =>
    if c = '\n' then
      if k < 2 then '\n' :: collapseNlAux (k + 1) rest
      else collapseNlAux (k + 1) rest
    else c :: collapseNlAux 0 rest

/-- Step 3 of clean_text: re.sub(r'\n{3,}', '\n\n', text) — every maximal run
of three or more newlines becomes exactly two. -/
def collapseNewlines (l : List Char) : List Char := collapseNlAux 0 l

/-- Python str.strip(): drop leading and trailing whitespace. -/
def stripChars (l : List Char) : List Char :=
  ((l.dropWhile isWs).reverse.dropWhile isWs).reverse

/-- Embedding of clean_text (text_utils.py lines 9-23): collapse whitespace
runs to single spaces, remove page-marker artifacts, collapse 3+ newline runs
to 2, then strip. -/
def clean_text (text : List Char) : List Char :=
  stripChars (collapseNewlines (removeMarkers (collapseWs text)))

/-! ### text_utils.create_text_chunks (lines 26-104) -/

/-- Embedding of models/document.py DocumentChunk, restricted to the fields
the verified code reads or writes. The random uuid4 default for id is not
modelled: the chunker stores the empty string there (no claim inspects ids of
chunker output; ids of chunks handed to the vector store are arbitrary
inputs). The metadata dict holds the two keys the chunker writes. -/
structure DocumentChunk where
  id : String
  document_id : String
  chunk_index : ℕ
  content : List Char
  start_char : ℕ
  end_char : ℕ
  page_number : Option ℕ
  meta_chunk_size : ℕ
  meta_original_length : ℕ
deriving Repr, DecidableEq

/-- Sentence terminators searched for at lines 64-68. -/
def isTermChar (c : Char) : Bool := c = '.' || c = '!' || c = '?'

/-- Whether position i of s holds a sentence terminator. -/
def termAt (s : List Char) (i : ℕ) : Bool :=
  match s.get? i with
  | some c => isTermChar c
  | none => false

/-- max(rfind('.', start, e), rfind('!', start, e), rfind('?', start, e)):
the largest index in [start, e) holding any sentence terminator, none when
all three rfinds return -1. -/
def rfindTerm (s : List Char) (start : ℕ) : ℕ → Option ℕ
  | 0 => none
  | e + 1 =>
    if start ≤ e ∧ termAt s e then some e
    else rfindTerm s start e

/-- Lines 58-72: the window end for the window starting at start — the hard
boundary min(start + chunk_size, len), moved back to just after the last
sentence terminator when that terminator lies strictly past the midpoint
start + chunk_size // 2 and the hard boundary is strictly inside the text. -/
def windowEnd (s : List Char) (start cs : ℕ) : ℕ :=
  let e := min (start + cs) s.length
  if e < s.length then
    match rfindTerm s start e with
    | some sb => if start + cs / 2 < sb then sb + 1 else e
    | none => e
  else e

/-- The stripped window slice (line 75): the chunk content candidate for the
window starting at start. -/
def windowContent (s : List Char) (start cs : ℕ) : List Char :=
  stripChars ((s.drop start).take (windowEnd s start cs - start))

/-- Lines 74-90: the chunk list after the conditional append of the current
window's chunk, skipped when the stripped content is empty. -/
def chunkAcc (s : List Char) (docId : String) (cs start idx : ℕ)
    (acc : List DocumentChunk) : List DocumentChunk :=
  if windowContent s start cs = [] then acc
  else
    acc ++ [{ id := "", document_id := docId, chunk_index := idx,
              content := windowContent s start cs, start_char := start,
              end_char := windowEnd s start cs, page_number := none,
              meta_chunk_size := (windowContent s start cs).length,
              meta_original_length := s.length }]

/-- Line 90: chunk_index advances only when a chunk was emitted. -/
def nextIdx (s : List Char) (cs start idx : ℕ) : ℕ :=
  if windowContent s start cs = [] then idx else idx + 1

/-- Lines 96-101: the next window start — max(start + chunk_size - overlap,
end - overlap), forced to end when it does not exceed the last emitted
chunk's start_char (line 100's conditional expression, which is False when no
chunk has been emitted yet). -/
def nextStart (s : List Char) (docId : String) (cs ov start idx : ℕ)
    (acc : List DocumentChunk) : ℕ :=
  let e := windowEnd s start cs
  let start1 := max (start + cs - ov) (e - ov)
  match (chunkAcc s docId cs start idx acc).getLast? with
  | some c => if start1 ≤ c.start_char then e else start1
  | none => start1

/-- One iteration of the while-loop body (lines 57-101). Returns inl with the
final chunk list when the loop exits during this iteration (start beyond the
text, or the window end reaching the text length), inr with the next
(start, chunk_index, chunks) state otherwise. -/
def chunkStep (s : List Char) (docId : String) (cs ov start idx : ℕ)
    (acc : List DocumentChunk) :
    (List DocumentChunk) ⊕ (ℕ × ℕ × List DocumentChunk) :=
  if start < s.length then
    if s.length ≤ windowEnd s start cs then .inl (chunkAcc s docId cs start idx acc)
    else .inr (nextStart s docId cs ov start idx acc, nextIdx s cs start idx,
               chunkAcc s docId cs start idx acc)
  else .inl acc

/-- The chunking while-loop (lines 57-102), driven by fuel. For the valid
parameter range 0 < chunk_size and overlap < chunk_size each iteration
strictly increases start, so fuel s.length + 1 reaches the loop's own exit;
the fuel-stability half of the termination claim is proved below. -/
def chunkLoop (s : List Char) (docId : String) (cs ov : ℕ) :
    ℕ → ℕ → ℕ → List DocumentChunk → List DocumentChunk
  | 0, _, _, acc => acc
  | fuel + 1, start, idx, acc =>
    match chunkStep s docId cs ov start idx acc with
    | .inl done => done
    | .inr (start2, idx2, acc2) => chunkLoop s docId cs ov fuel start2 idx2 acc2

/-- Embedding of create_text_chunks (lines 26-104): empty or whitespace-only
input yields no chunks; otherwise the cleaned text is chunked by the sliding
window loop. -/
def create_text_chunks (text : List Char) (docId : String) (cs ov : ℕ) :
    List DocumentChunk :=
  if text = [] ∨ stripChars text = [] then []
  else chunkLoop (clean_text text) docId cs ov ((clean_text text).length + 1) 0 0 []

/-! ### services/vector_service.py -/

/-- models/search.py SearchQuery. -/
structure SearchQuery where
  query : String
  top_k : ℕ
  relevance_threshold : ℚ
deriving Repr, DecidableEq

/-- models/search.py SearchResult. -/
structure SearchResult where
  chunk : DocumentChunk
  relevance_score : ℚ
  document_name : String
deriving Repr, DecidableEq

/-- models/search.py SearchResponse. -/
structure SearchResponse where
  query : String
  results : List SearchResult
  total_results : ℕ
  search_time : ℚ
deriving Repr, DecidableEq

/-- In-memory state of VectorService: the optional FAISS index (dimension and
stored vectors) plus the two metadata dicts. Dicts are association lists; a
new binding is consed in front, so List.lookup returns the latest one.
The source stores each vector divided by its L2 norm; that norm is a square
root, which has no exact rational representation, so the model stores the
pre-normalization vector and guards on the squared norm (zero exactly when
the norm is zero). No claim settled here depends on stored vector values. -/
structure VectorState where
  index : Option (ℕ × List (List ℚ))
  chunk_metadata : List (ℕ × DocumentChunk)
  document_names : List (String × String)
deriving Repr, DecidableEq

/-- index.ntotal in the source: 0 when no index exists. -/
def VectorState.ntotal (st : VectorState) : ℕ :=
  match st.index with
  | none => 0
  | some (_, vecs) => vecs.length

/-- The state right after __init__ when no persisted index was found. -/
def emptyVectorState : VectorState :=
  { index := none, chunk_metadata := [], document_names := [] }

/-- Squared L2 norm. np.linalg.norm(v) > 0 iff normSq v > 0. -/
def normSq (v : List ℚ) : ℚ := (v.map (fun x => x * x)).sum

/-- Lines 68-80 of add_embeddings: the (chunk, embedding) pairs that survive
the per-chunk screening, in chunk order — chunks whose id is missing from the
embeddings dict or whose vector has zero norm are skipped (and logged). -/
def validEntries (chunks : List DocumentChunk) (embeddings : List (String × List ℚ)) :
    List (DocumentChunk × List ℚ) :=
  chunks.filterMap (fun c =>
    match embeddings.lookup c.id with
    | some v => if 0 < normSq v then some (c, v) else none
    | none => none)

/-- Embedding of add_embeddings (lines 42-109). Returns the new state and the
boolean result. Ragged batches and batches whose dimension differs from an
existing index make faiss/numpy raise inside the try block, which the source
catches and turns into False with no vectors added, hence the dimension
guards. When no index exists one is created with the batch dimension
(create_index, lines 33-40). -/
def add_embeddings (st : VectorState) (chunks : List DocumentChunk)
    (embeddings : List (String × List ℚ)) (document_name : String) :
    VectorState × Bool :=
  if chunks = [] ∨ embeddings = [] then (st, false)
  else
    match validEntries chunks embeddings with
    | [] => (st, false)
    | (c0, v0) :: restValid =>
      let valid := (c0, v0) :: restValid
      let d := v0.length
      if valid.all (fun p => p.2.length = d) then
        match st.index with
        | none =>
          (addToIndex { st with index := some (d, []) } d [] valid document_name, true)
        | some (dim, vecs) =>
          if d = dim then (addToIndex st dim vecs valid document_name, true)
          else (st, false)
      else (st, false)
where
  /-- Lines 93-101: append the batch to the index and record metadata under
  the dense slot ids start_idx, start_idx+1, ... -/
  addToIndex (st : VectorState) (dim : ℕ) (vecs : List (List ℚ))
      (valid : List (DocumentChunk × List ℚ)) (document_name : String) : VectorState :=
    { index := some (dim, vecs ++ valid.map Prod.snd),
      chunk_metadata :=
        (valid.enum.map (fun p => (vecs.length + p.1, p.2.1))) ++ st.chunk_metadata,
      document_names :=
        (valid.map (fun p => (p.1.document_id, document_name))) ++ st.document_names }

/-- Lines 147-162 of search: the SearchResult built from one row of the
FAISS answer, none when the row is skipped — a -1 empty-slot marker, a score
below the relevance threshold, or a slot with no chunk metadata. -/
def buildRow (st : VectorState) (threshold : ℚ) (p : ℚ × Int) : Option SearchResult :=
  if p.2 = -1 then none
  else if threshold ≤ p.1 then
    match st.chunk_metadata.lookup p.2.toNat with
    | some chunk =>
      some { chunk := chunk, relevance_score := p.1,
             document_name :=
               (st.document_names.lookup chunk.document_id).getD ("Unknown") }
    | none => none
  else none

/-- Embedding of search (lines 111-182). The call to the external FAISS
index, scores, indices = index.search(normalized query, min(top_k, ntotal)),
enters as the faissOut parameter: the (score, slot) rows of its answer.
Claims about search constrain faissOut by the FAISS contract (row count
min(top_k, ntotal), scores descending). elapsed is the wall-clock time the
non-empty path would measure; the empty-index path reports 0.0 exactly as
lines 125-132 do. -/
def VectorService.search (st : VectorState) (query_embedding : List ℚ)
    (query : SearchQuery) (faissOut : List (ℚ × Int)) (elapsed : ℚ) :
    SearchResponse :=
  match st.index with
  | none =>
    { query := query.query, results := [], total_results := 0, search_time := 0 }
  | some (_, vecs) =>
    if vecs.length = 0 then
      { query := query.query, results := [], total_results := 0, search_time := 0 }
    else
      let results := faissOut.filterMap (buildRow st query.relevance_threshold)
      { query := query.query, results := results, total_results := results.length,
        search_time := elapsed }

/-- On-disk artifact as load_index sees it: absent, present but unreadable
(reading it raises), or readable with parsed contents. -/
inductive FileState (α : Type) where
  | missing : FileState α
  | unreadable : FileState α
  | readable : α → FileState α
deriving Repr, DecidableEq

/-- The metadata pickle payload (lines 195-198, 220-224). -/
structure PersistedMetadata where
  chunk_metadata : List (ℕ × DocumentChunk)
  document_names : List (String × String)
deriving Repr, DecidableEq

/-- Embedding of load_index (lines 210-231). Mirrors the statement order of
the source: the existence checks first (returning False when either artifact
is missing), then faiss.read_index — whose successful result is assigned to
self.index immediately — then the metadata unpickling; any raise inside the
try block is caught and turned into False, with whatever assignments already
happened left in place. -/
def load_index (st : VectorState)
    (indexFile : FileState (ℕ × List (List ℚ)))
    (metadataFile : FileState PersistedMetadata) : VectorState × Bool :=
  match indexFile, metadataFile with
  | .missing, _ => (st, false)
  | _, .missing => (st, false)
  | .unreadable, _ => (st, false)
  | .readable v, .unreadable => ({ st with index := some v }, false)
  | .readable v, .readable m =>
    ({ index := some v, chunk_metadata := m.chunk_metadata,
       document_names := m.document_names }, true)

/-! ### utils/openai_utils.py -/

/-- What the provider call does on one attempt: return a value, or raise one
of the three exception classes the source distinguishes (openai.RateLimitError,
openai.APIError, any other Exception), carrying its message. -/
inductive AttemptResult (α : Type) where
  | ok : α → AttemptResult α
  | rateLimit : String → AttemptResult α
  | apiError : String → AttemptResult α
  | other : String → AttemptResult α
deriving Repr, DecidableEq

instance exceptDecEq {α : Type} [DecidableEq α] : DecidableEq (Except String α) :=
  fun a b =>
    match a, b with
    | .error e1, .error e2 => decidable_of_iff (e1 = e2) (by simp)
    | .error _, .ok _ => isFalse (by simp)
    | .ok _, .error _ => isFalse (by simp)
    | .ok a1, .ok a2 => decidable_of_iff (a1 = a2) (by simp)

/-- Observable behaviour of one retry-wrapped operation: the value returned
or error finally raised, the sequence of time.sleep durations in order, and
how many attempts were started. -/
structure RetryTrace (α : Type) where
  result : Except String α
  sleeps : List ℚ
  attempts : ℕ
deriving Repr, DecidableEq

/-- The for attempt in range(self.max_retries) loop that get_embedding
(lines 29-54), each sub-batch of get_embeddings_batch (lines 74-102) and
chat_completion (lines 125-160) all repeat verbatim: attempt i runs the call;
on RateLimitError it sleeps base * 2 ** i and then re-raises when i was the
last attempt; on APIError or any other exception it re-raises at once when i
was the last attempt and otherwise sleeps the flat base delay; outcomes i is
what the provider does on attempt i. Fuel is the number of attempts still
allowed, so the loop is structural; the zero case is Python's fall through
the loop, unreachable because the last attempt always returns or raises. -/
def retryFrom (maxR : ℕ) (base : ℚ) (outcomes : ℕ → AttemptResult α) :
    ℕ → ℕ → RetryTrace α
  | _, 0 => { result := .error "", sleeps := [], attempts := 0 }
  | i, fuel + 1 =>
    match outcomes i with
    | .ok a => { result := .ok a, sleeps := [], attempts := 1 }
    | .rateLimit e =>
      if i = maxR - 1 then
        { result := .error e, sleeps := [base * 2 ^ i], attempts := 1 }
      else
        let t := retryFrom maxR base outcomes (i + 1) fuel
        { result := t.result, sleeps := base * 2 ^ i :: t.sleeps,
          attempts := t.attempts + 1 }
    | .apiError e =>
      if i = maxR - 1 then { result := .error e, sleeps := [], attempts := 1 }
      else
        let t := retryFrom maxR base outcomes (i + 1) fuel
        { result := t.result, sleeps := base :: t.sleeps, attempts := t.attempts + 1 }
    | .other e =>
      if i = maxR - 1 then { result := .error e, sleeps := [], attempts := 1 }
      else
        let t := retryFrom maxR base outcomes (i + 1) fuel
        { result := t.result, sleeps := base :: t.sleeps, attempts := t.attempts + 1 }

/-- One retry-wrapped provider operation with the client's configuration
max_retries = 3, base_delay = 1.0 (lines 15-16). -/
def retryCall (outcomes : ℕ → AttemptResult α) : RetryTrace α :=
  retryFrom 3 1 outcomes 0 3

/-- models/conversation.py token usage dict built at lines 135-139. -/
structure TokenUsage where
  prompt_tokens : ℕ
  completion_tokens : ℕ
  total_tokens : ℕ
deriving Repr, DecidableEq

/-- get_embedding (lines 18-54): the retry loop around a single
embeddings.create call. -/
def get_embedding (outcomes : ℕ → AttemptResult (List ℚ)) : RetryTrace (List ℚ) :=
  retryCall outcomes

/-- chat_completion (lines 106-160): the retry loop around a single
chat.completions.create call, yielding the text and the usage numbers. -/
def chat_completion (outcomes : ℕ → AttemptResult (String × TokenUsage)) :
    RetryTrace (String × TokenUsage) :=
  retryCall outcomes

/-- get_embeddings_batch (lines 56-104): the input is cut into sub-batches of
100; each sub-batch runs the same retry loop (outcomes b is the provider
behaviour for sub-batch b); results of completed sub-batches accumulate in
order, and a sub-batch that exhausts its retries propagates its error,
aborting the call with the sleeps performed so far. -/
def get_embeddings_batch (texts : List String)
    (outcomes : ℕ → ℕ → AttemptResult (List (List ℚ))) :
    Except String (List (List ℚ)) × List ℚ :=
  ((texts.toChunks 100).enum).foldl
    (fun acc p =>
      match acc with
      | (.error e, sleeps) => (.error e, sleeps)
      | (.ok embs, sleeps) =>
        let t := retryCall (outcomes p.1)
        match t.result with
        | .ok bs => (.ok (embs ++ bs), sleeps ++ t.sleeps)
        | .error e => (.error e, sleeps ++ t.sleeps))
    (.ok [], [])

/-- Whether a provider attempt returned normally. -/
def attemptOk {α : Type} : AttemptResult α → Bool
  | .ok _ => true
  | _ => false

/-- The message of the exception an attempt raised (empty for a normal
return, which never reaches the error paths). -/
def attemptErr {α : Type} : AttemptResult α → String
  | .ok _ => ""
  | .rateLimit e => e
  | .apiError e => e
  | .other e => e

/-- The time.sleep calls attempt i issues under the source's policy:
base * 2 ** i on a rate limit (issued even by the final attempt, which
sleeps and then re-raises), the flat base on any other error except on the
final attempt (which re-raises at once), nothing on a normal return. -/
def attemptSleeps {α : Type} (base : ℚ) (maxR i : ℕ) : AttemptResult α → List ℚ
  | .ok _ => []
  | .rateLimit _ => [base * 2 ^ i]
  | .apiError _ => if i = maxR - 1 then [] else [base]
  | .other _ => if i = maxR - 1 then [] else [base]

/-! ### services/rag_service.py -/

/-- models/conversation.py SourceCitation. -/
structure SourceCitation where
  document_id : String
  document_name : String
  chunk_id : String
  content : List Char
  relevance_score : ℚ
  page_number : Option ℕ
deriving Repr, DecidableEq

/-- models/conversation.py ChatResponse, restricted to the fields the
pipeline sets (the random id and the timestamp are not modelled). -/
structure ChatResponse where
  content : String
  sources : List SourceCitation
  response_time : ℚ
  token_usage : Option TokenUsage
deriving Repr, DecidableEq

/-- Lines 78-87 of generate_response: the citation built from one search
result, with the displayed content truncated to 200 characters plus an
ellipsis when longer. -/
def makeCitation (r : SearchResult) : SourceCitation :=
  { document_id := r.chunk.document_id,
    document_name := r.document_name,
    chunk_id := r.chunk.id,
    content := if 200 < r.chunk.content.length
               then r.chunk.content.take 200 ++ ("...").toList
               else r.chunk.content,
    relevance_score := r.relevance_score,
    page_number := r.chunk.page_number }

/-- The fixed system instruction (rag_service.py lines 23-31). -/
def systemPrompt : String :=
  "You are a helpful AI assistant that answers questions based on provided document context. \n\nGuidelines:\n- Use only the information provided in the context to answer questions\n- If the context doesn't contain enough information to answer a question, say so clearly\n- Be concise but comprehensive in your responses\n- When referencing information, mention which document it came from when possible\n- If multiple documents provide relevant information, synthesize the information appropriately\n- Maintain a professional and helpful tone"

/-- Relevance rendering in the context block header. The source formats the
float with :.3f; decimal rendering of the score is not modelled and no claim
reads this string. -/
def formatRel (q : ℚ) : String := toString q

/-- _build_context_text (lines 141-153). -/
def build_context_text (context_chunks : List (List Char × String × ℚ)) : String :=
  match context_chunks with
  | [] => "No relevant context found in the uploaded documents."
  | _ =>
    String.intercalate "\n---\n"
      (context_chunks.map (fun p =>
        "[Document: " ++ p.2.1 ++ ", Relevance: " ++ formatRel p.2.2 ++ "]\n"
          ++ String.mk p.1 ++ "\n"))

/-- Steps 3-5 of generate_response (lines 66-109): the message list sent to
chat_completion — the system prompt, the last 6 turns of the provided
history, then the user turn holding the assembled context and the question. -/
def buildMessages (query : String) (conversation_history : Option (List (String × String)))
    (sr : SearchResponse) : List (String × String) :=
  let context_text := build_context_text
    (sr.results.map (fun r => (r.chunk.content, r.document_name, r.relevance_score)))
  [("system", systemPrompt)] ++
  (match conversation_history with
   | some h => h.drop (h.length - 6)
   | none => []) ++
  [("user",
    "Context from documents:\n" ++ context_text ++ "\n\nQuestion: " ++ query ++
    "\n\nPlease answer the question based on the provided context. If the context doesn't contain sufficient information to answer the question, please state that clearly.")]

/-- The prefix of the degraded response text built at line 135. -/
def apologyPrefix : String :=
  "I apologize, but I encountered an error while processing your question: "

/-- The catch-all response of lines 130-139. -/
def errorChatResponse (e : String) (elapsed : ℚ) : ChatResponse :=
  { content := apologyPrefix ++ e, sources := [], response_time := elapsed,
    token_usage := none }

/-- Embedding of RAGService.generate_response (lines 33-139). The two
fallible provider calls enter as Except values/functions: embedRes is what
self.openai_client.get_embedding raises or returns, completeRes what
chat_completion raises or returns on a given message list; the vector search
(which itself never raises, see VectorService.search) enters as searchFn.
Any error short-circuits to the except-branch response carrying the measured
elapsed time, an empty source list and no token usage. -/
def generate_response
    (embedRes : Except String (List ℚ))
    (searchFn : List ℚ → SearchResponse)
    (completeRes : List (String × String) → Except String (String × TokenUsage))
    (query : String) (conversation_history : Option (List (String × String)))
    (elapsed : ℚ) : ChatResponse :=
  match embedRes with
  | .error e => errorChatResponse e elapsed
  | .ok query_embedding =>
    let sr := searchFn query_embedding
    let citations := sr.results.map makeCitation
    let messages := buildMessages query conversation_history sr
    match completeRes messages with
    | .error e => errorChatResponse e elapsed
    | .ok (response_text, usage) =>
      { content := response_text, sources := citations,
        response_time := elapsed, token_usage := some usage }

/-! ### services/chat_service.py and models/conversation.py -/

/-- models/conversation.py ChatMessage, restricted to the fields the history
construction reads (id and timestamp are not modelled). -/
structure ChatMessage where
  content : String
  role : String
deriving Repr, DecidableEq

/-- ConversationSession.get_recent_messages (lines 56-57): the Python slice
messages[-count:] (with the empty-list guard). A count of 0 would slice from
index -0 = 0, i.e. return the whole list. -/
def get_recent_messages (messages : List ChatMessage) (count : ℕ) : List ChatMessage :=
  if count = 0 then messages
  else messages.drop (messages.length - count)

/-- Lines 59-70 of ChatService.send_message: append the user message to the
session, take the last 10 messages, drop the final one (the just-appended
user message) and map the rest to role/content pairs — the
conversation_history handed to RAGService.generate_response. -/
def send_message_history (messages : List ChatMessage) (userMsg : String) :
    List (String × String) :=
  let appended := messages ++ [{ content := userMsg, role := "user" }]
  ((get_recent_messages appended 10).dropLast).map (fun m => (m.role, m.content))

/-- Concrete chunk used by witness instantiations. -/
def sampleChunk : DocumentChunk :=
  { id := "c0", document_id := "d0", chunk_index := 0, content := [],
    start_char := 0, end_char := 1, page_number := none,
    meta_chunk_size := 0, meta_original_length := 0 }

/-- Concrete one-vector index state used by witness instantiations. -/
def sampleState : VectorState :=
  { index := some (2, [[1, 0]]),
    chunk_metadata := [(0, sampleChunk)],
    document_names := [("d0", "doc.pdf")] }

/-- Concrete query used by witness instantiations. -/
def sampleQuery : SearchQuery :=
  { query := "q", top_k := 5, relevance_threshold := 0 }

/-- Chunk with a zero-norm embedding in sampleEmbeddings. -/
def sampleZeroChunk : DocumentChunk := { sampleChunk with id := "a" }

/-- Chunk with a nonzero embedding in sampleEmbeddings. -/
def sampleGoodChunk : DocumentChunk := { sampleChunk with id := "b" }

/-- Embeddings dict pairing sampleZeroChunk with a zero vector and
sampleGoodChunk with a nonzero one. -/
def sampleEmbeddings : List (String × List ℚ) := [("a", [0, 0]), ("b", [3, 4])]

/-! ### Helper lemmas about the cleaning pipeline -/

/-- A marker match consumes at least one character, so removeMarkersAux with
fuel equal to the remaining length always reaches the end of the text. -/
theorem markerLen_pos {l : List Char} {n : ℕ} (h : markerLen l = some n) : 0 < n := by
  unfold markerLen at h
  split at h
  · split at h
    · exact absurd h (by simp)
    · split at h
      · simp only [Option.some.injEq] at h
        omega
      · exact absurd h (by simp)
  · exact absurd h (by simp)

theorem newline_not_mem_collapseWsAux (b : Bool) (l : List Char) :
    '\n' ∉ collapseWsAux b l := by
  induction l generalizing b with
  | nil => simp [collapseWsAux]
  | cons c rest ih =>
    by_cases h : isWs c
    · cases b <;> simp [collapseWsAux, h, ih]
    · have hc : c ≠ '\n' := by
        intro he
        rw [he] at h
        exact h (by decide)
      simp [collapseWsAux, h, ih]
      exact fun he => hc he.symm

theorem mem_of_mem_dropWhile {α : Type} {p : α → Bool} {c : α} :
    ∀ {l : List α}, c ∈ l.dropWhile p → c ∈ l := by
  intro l
  induction l with
  | nil => simp
  | cons a l ih =>
    intro h
    by_cases hp : p a
    · simp only [List.dropWhile_cons, hp, if_true] at h
      exact List.mem_cons_of_mem a (ih h)
    · simpa only [List.dropWhile_cons, hp, if_false] using h

theorem mem_of_mem_removeMarkersAux {c : Char} :
    ∀ (fuel : ℕ) (l : List Char), c ∈ removeMarkersAux fuel l → c ∈ l := by
  intro fuel
  induction fuel with
  | zero => intro l h; simp [removeMarkersAux] at h
  | succ f ih =>
    intro l h
    cases l with
    | nil => simp [removeMarkersAux] at h
    | cons x rest =>
      simp only [removeMarkersAux] at h
      cases hm : markerLen (x :: rest) with
      | some n =>
        rw [hm] at h
        exact List.mem_of_mem_drop (ih _ h)
      | none =>
        rw [hm] at h
        rw [List.mem_cons] at h
        rcases h with h | h
        · exact List.mem_cons.mpr (Or.inl h)
        · exact List.mem_cons_of_mem x (ih rest h)

theorem mem_of_mem_collapseNlAux {c : Char} :
    ∀ (l : List Char) (k : ℕ), c ∈ collapseNlAux k l → c ∈ l := by
  intro l
  induction l with
  | nil => intro k h; simp [collapseNlAux] at h
  | cons a rest ih =>
    intro k h
    by_cases ha : a = '\n'
    · by_cases hk : k < 2
      · simp only [collapseNlAux, ha, if_true, hk] at h
        rw [List.mem_cons] at h
        rcases h with h | h
        · exact List.mem_cons.mpr (Or.inl (ha ▸ h))
        · exact List.mem_cons_of_mem a (ih _ h)
      · simp only [collapseNlAux, ha, if_true, hk, if_false] at h
        exact List.mem_cons_of_mem a (ih _ h)
    · simp only [collapseNlAux, ha, if_false] at h
      rw [List.mem_cons] at h
      rcases h with h | h
      · exact List.mem_cons.mpr (Or.inl h)
      · exact List.mem_cons_of_mem a (ih _ h)

theorem collapseNlAux_eq_self {l : List Char} (h : '\n' ∉ l) (k : ℕ) :
    collapseNlAux k l = l := by
  induction l generalizing k with
  | nil => simp [collapseNlAux]
  | cons a rest ih =>
    have ha : a ≠ '\n' := fun he => h (he ▸ List.mem_cons_self a rest)
    have hrest : '\n' ∉ rest := fun hm => h (List.mem_cons_of_mem a hm)
    simp [collapseNlAux, ha, ih hrest]

theorem mem_of_mem_stripChars {c : Char} {l : List Char} (h : c ∈ stripChars l) :
    c ∈ l := by
  unfold stripChars at h
  rw [List.mem_reverse] at h
  have h2 := mem_of_mem_dropWhile h
  rw [List.mem_reverse] at h2
  exact mem_of_mem_dropWhile h2

theorem head_dropWhile_not {α : Type} (p : α → Bool) :
    ∀ (l : List α) (c : α), (l.dropWhile p).head? = some c → p c = false := by
  intro l
  induction l with
  | nil => simp
  | cons a l ih =>
    intro c h
    by_cases hp : p a
    · rw [List.dropWhile_cons, if_pos hp] at h
      exact ih c h
    · rw [List.dropWhile_cons, if_neg hp] at h
      simp only [List.head?_cons, Option.some.injEq] at h
      rw [← h]
      exact Bool.of_not_eq_true hp

theorem getLast?_dropWhile {α : Type} (p : α → Bool) :
    ∀ (l : List α), l.dropWhile p ≠ [] → (l.dropWhile p).getLast? = l.getLast? := by
  intro l
  induction l with
  | nil => simp
  | cons a l ih =>
    intro hne
    by_cases hp : p a
    · rw [List.dropWhile_cons, if_pos hp] at hne ⊢
      have hl : l ≠ [] := by
        intro he
        rw [he] at hne
        exact hne (by simp)
      rw [ih hne]
      cases l with
      | nil => exact absurd rfl hl
      | cons b t => exact (List.getLast?_cons_cons).symm
    · rw [List.dropWhile_cons, if_neg hp]

theorem stripChars_getLast_not_ws (l : List Char) (c : Char)
    (h : (stripChars l).getLast? = some c) : isWs c = false := by
  unfold stripChars at h
  rw [List.getLast?_reverse] at h
  exact head_dropWhile_not isWs _ c h

theorem stripChars_head_not_ws (l : List Char) (c : Char)
    (h : (stripChars l).head? = some c) : isWs c = false := by
  unfold stripChars at h
  rw [List.head?_reverse] at h
  have hne : (l.dropWhile isWs).reverse.dropWhile isWs ≠ [] := by
    intro he
    rw [he] at h
    exact Option.noConfusion h
  rw [getLast?_dropWhile isWs _ hne, List.getLast?_reverse] at h
  exact head_dropWhile_not isWs _ c h

theorem newline_not_mem_afterMarkers (text : List Char) :
    '\n' ∉ removeMarkers (collapseWs text) := by
  intro h
  exact newline_not_mem_collapseWsAux false text
    (mem_of_mem_removeMarkersAux _ _ h)

/-- C10: clean_text output contains no newline and no leading or trailing
whitespace, and the 3+-newline collapsing substitution is the identity on its
input because the whitespace-collapsing substitution has already removed
every newline. -/
theorem clean_text_no_newline_stripped (text : List Char) :
    '\n' ∉ clean_text text ∧
    (clean_text text).head?.all (fun c => !(isWs c)) = true ∧
    (clean_text text).getLast?.all (fun c => !(isWs c)) = true ∧
    collapseNewlines (removeMarkers (collapseWs text)) =
      removeMarkers (collapseWs text) := by
  have hnl := newline_not_mem_afterMarkers text
  have hid : collapseNewlines (removeMarkers (collapseWs text)) =
      removeMarkers (collapseWs text) := collapseNlAux_eq_self hnl 0
  refine ⟨?_, ?_, ?_, hid⟩
  · intro h
    have h2 := mem_of_mem_stripChars h
    exact hnl (mem_of_mem_collapseNlAux _ _ h2)
  · cases hh : (clean_text text).head? with
    | none => simp
    | some c =>
      have := stripChars_head_not_ws _ c hh
      simp [this]
  · cases hh : (clean_text text).getLast? with
    | none => simp
    | some c =>
      have := stripChars_getLast_not_ws _ c hh
      simp [this]

/-! ### Claim C7: load_index failure behaviour -/

/-- C7 counterexample: starting from the empty in-memory state, a readable
index file holding one vector together with an unreadable metadata file makes
load_index return false while leaving that vector loaded — the load failure
does not leave the index empty, refuting the claimed atomicity. -/
theorem load_index_counterexample :
    (load_index emptyVectorState (.readable (2, [[1, 0]])) .unreadable).2 = false ∧
    (load_index emptyVectorState (.readable (2, [[1, 0]])) .unreadable).1.ntotal = 1 := by
  constructor <;> rfl

/-- C7 (amended): load_index answers false (never raising) on every missing
or unreadable persisted state; when either artifact is missing, or the index
artifact itself is unreadable, the in-memory state is left unchanged — but
when the index artifact is readable and only the metadata artifact is
unreadable, the freshly read vectors stay in memory alongside the previous
metadata, so the pair is not loaded as an atomic unit. -/
theorem load_index_failure_modes (st : VectorState)
    (idxF : FileState (ℕ × List (List ℚ))) (metaF : FileState PersistedMetadata) :
    (load_index st .missing metaF = (st, false)) ∧
    (load_index st idxF .missing = (st, false)) ∧
    (load_index st .unreadable metaF = (st, false)) ∧
    (∀ v, load_index st (.readable v) .unreadable =
      ({ st with index := some v }, false)) ∧
    (∀ v m, load_index st (.readable v) (.readable m) =
      ({ index := some v, chunk_metadata := m.chunk_metadata,
         document_names := m.document_names }, true)) := by
  refine ⟨?_, ?_, ?_, fun v => rfl, fun v m => rfl⟩
  · cases metaF <;> rfl
  · cases idxF <;> rfl
  · cases metaF <;> rfl

/-! ### Claim C9: history handed to the orchestrator -/

/-- C9 counterexample: with 10 prior messages in the session, the history
passed along has 9 entries, not the claimed 10. -/
theorem send_message_history_counterexample :
    (send_message_history
      (List.replicate 10 { content := "m", role := "user" }) ("q")).length = 9 ∧
    (List.replicate 10 ({ content := "m", role := "user" } : ChatMessage)).length
      = 10 := by
  constructor <;> rfl

/-- C9 (amended): the history passed to the orchestrator consists of the last
9 messages the session held before the send — the last 10 of the list with
the new user message appended, minus that appended message — each mapped to a
role/content pair in order; when the session already held at least 9 prior
messages, exactly 9 are passed. -/
theorem send_message_history_spec (messages : List ChatMessage) (userMsg : String) :
    send_message_history messages userMsg =
      (messages.drop (messages.length - 9)).map (fun m => (m.role, m.content)) ∧
    (9 ≤ messages.length →
      (send_message_history messages userMsg).length = 9) := by
  have hmain : send_message_history messages userMsg =
      (messages.drop (messages.length - 9)).map (fun m => (m.role, m.content)) := by
    simp only [send_message_history, get_recent_messages]
    rw [if_neg (show ¬((10 : ℕ) = 0) from by decide)]
    have hlen : (messages ++ [({ content := userMsg, role := "user" } : ChatMessage)]).length
        = messages.length + 1 := by simp
    rw [hlen]
    have hk : messages.length + 1 - 10 = messages.length - 9 := by omega
    rw [hk]
    rw [List.drop_append_of_le_length (by omega)]
    rw [List.dropLast_concat]
  refine ⟨hmain, fun h9 => ?_⟩
  rw [hmain]
  simp only [List.length_map, List.length_drop]
  omega

/-- Witness for the amended C9 at a concrete session of 9 prior messages. -/
theorem send_message_history_spec_witness :
    (send_message_history
      (List.replicate 9 { content := "w", role := "user" }) ("q")).length = 9 :=
  (send_message_history_spec
    (List.replicate 9 { content := "w", role := "user" }) ("q")).2 (by decide)

/-! ### Claim C5: retry policy of the provider client -/

/-- C5: the retry loop shared verbatim by get_embedding, chat_completion and
each sub-batch of get_embeddings_batch makes at most 3 attempts; its sleep
sequence is exactly the concatenation of the per-attempt backoff policy —
base_delay * 2^i before attempt i is abandoned on a rate limit, the flat
base_delay on any other provider error between attempts — and when all 3
attempts fail the final attempt's error is raised to the caller, never a
non-error value. -/
theorem retry_policy {α : Type} (outcomes : ℕ → AttemptResult α) :
    (retryCall outcomes).attempts ≤ 3 ∧
    (retryCall outcomes).sleeps =
      ((List.range (retryCall outcomes).attempts).map
        (fun i => attemptSleeps 1 3 i (outcomes i))).flatten ∧
    (attemptOk (outcomes 0) = false → attemptOk (outcomes 1) = false →
      attemptOk (outcomes 2) = false →
      (retryCall outcomes).result = .error (attemptErr (outcomes 2)) ∧
      (retryCall outcomes).attempts = 3) := by
  rcases h0 : outcomes 0 with a0 | e0 | e0 | e0 <;>
    rcases h1 : outcomes 1 with a1 | e1 | e1 | e1 <;>
      rcases h2 : outcomes 2 with a2 | e2 | e2 | e2 <;>
        simp [retryCall, retryFrom, h0, h1, h2, attemptSleeps, attemptOk,
          attemptErr, List.range_succ]

/-- Witness for C5: the all-rate-limited run raises the final rate-limit
error after 3 attempts with sleeps 1, 2, 4. -/
theorem retry_policy_witness :
    (retryCall (fun i => (AttemptResult.rateLimit ("rl") : AttemptResult ℕ))).result
      = .error ("rl") ∧
    (retryCall (fun i => (AttemptResult.rateLimit ("rl") : AttemptResult ℕ))).attempts
      = 3 :=
  (retry_policy (fun i => (AttemptResult.rateLimit ("rl") : AttemptResult ℕ))).2.2
    rfl rfl rfl

/-! ### Claim C4: orchestrator failure semantics -/

/-- C4: whenever a pipeline step of generate_response fails — the query
embedding call raises, or the completion call raises (the vector search is a
total function and returns normally) — the orchestrator returns a normally
shaped ChatResponse whose content is the apology text naming the failure,
with an empty source list, absent token usage, and the measured elapsed time;
generate_response is a total function, so no exception escapes to its
caller. -/
theorem generate_response_error_path
    (embedRes : Except String (List ℚ)) (searchFn : List ℚ → SearchResponse)
    (completeRes : List (String × String) → Except String (String × TokenUsage))
    (query : String) (hist : Option (List (String × String))) (elapsed : ℚ) :
    (∀ e, embedRes = .error e →
      generate_response embedRes searchFn completeRes query hist elapsed =
        { content := apologyPrefix ++ e, sources := [], response_time := elapsed,
          token_usage := none }) ∧
    (∀ qe e, embedRes = .ok qe →
      completeRes (buildMessages query hist (searchFn qe)) = .error e →
      generate_response embedRes searchFn completeRes query hist elapsed =
        { content := apologyPrefix ++ e, sources := [], response_time := elapsed,
          token_usage := none }) := by
  constructor
  · intro e he
    simp [generate_response, he, errorChatResponse]
  · intro qe e he hc
    simp [generate_response, he, hc, errorChatResponse]

/-- Witness for C4: a concrete failing embedding call yields the concrete
apology response. -/
theorem generate_response_error_witness :
    generate_response (.error ("boom"))
      (fun v => { query := "q", results := [], total_results := 0, search_time := 0 })
      (fun m => .error ("down")) ("q") none 5 =
      { content := apologyPrefix ++ "boom", sources := [], response_time := 5,
        token_usage := none } :=
  (generate_response_error_path (.error ("boom"))
    (fun v => { query := "q", results := [], total_results := 0, search_time := 0 })
    (fun m => .error ("down")) ("q") none 5).1 ("boom") rfl

/-! ### Claim C2: search contract -/

theorem buildRow_some {st : VectorState} {thr : ℚ} {p : ℚ × Int} {r : SearchResult}
    (h : buildRow st thr p = some r) :
    r.relevance_score = p.1 ∧ thr ≤ p.1 := by
  unfold buildRow at h
  split at h
  · exact Option.noConfusion h
  · split at h
    · next hthr =>
      split at h
      · next chunk hc =>
        refine ⟨?_, hthr⟩
        cases h
        rfl
      · exact Option.noConfusion h
    · exact Option.noConfusion h

theorem buildRow_scores_sublist (st : VectorState) (thr : ℚ) :
    ∀ l : List (ℚ × Int),
      ((l.filterMap (buildRow st thr)).map SearchResult.relevance_score).Sublist
        (l.map Prod.fst) := by
  intro l
  induction l with
  | nil => simp
  | cons p rest ih =>
    cases hb : buildRow st thr p with
    | none =>
      simp only [List.filterMap_cons, hb, List.map_cons]
      exact ih.cons p.1
    | some r =>
      simp only [List.filterMap_cons, hb, List.map_cons, (buildRow_some hb).1]
      exact ih.cons₂ p.1

/-- C2: search returns at most min(top_k, ntotal) results — faissOut being
the rows the external FAISS call answers for k = min(top_k, ntotal), with
scores descending per its contract — in descending score order, every result
scoring at least the relevance threshold; and on an uninitialized index or
one holding zero vectors it returns the empty response with search_time 0.0
(search is a total function, so it never raises). -/
theorem search_spec (st : VectorState) (qe : List ℚ) (q : SearchQuery)
    (faissOut : List (ℚ × Int)) (elapsed : ℚ)
    (hlen : faissOut.length = min q.top_k st.ntotal)
    (hsorted : (faissOut.map Prod.fst).Pairwise (fun a b => b ≤ a)) :
    (VectorService.search st qe q faissOut elapsed).results.length ≤
      min q.top_k st.ntotal ∧
    ((VectorService.search st qe q faissOut elapsed).results.map
      SearchResult.relevance_score).Pairwise (fun a b => b ≤ a) ∧
    (∀ r ∈ (VectorService.search st qe q faissOut elapsed).results,
      q.relevance_threshold ≤ r.relevance_score) ∧
    (st.ntotal = 0 →
      (VectorService.search st qe q faissOut elapsed).results = [] ∧
      (VectorService.search st qe q faissOut elapsed).search_time = 0) := by
  cases hidx : st.index with
  | none =>
    simp [VectorService.search, hidx]
  | some dv =>
    obtain ⟨d, vecs⟩ := dv
    by_cases hz : vecs.length = 0
    · simp [VectorService.search, hidx, hz]
    · have hresults : (VectorService.search st qe q faissOut elapsed).results =
          faissOut.filterMap (buildRow st q.relevance_threshold) := by
        simp [VectorService.search, hidx, hz]
      have hnt : st.ntotal = vecs.length := by
        simp [VectorState.ntotal, hidx]
      refine ⟨?_, ?_, ?_, ?_⟩
      · rw [hresults, ← hlen]
        exact List.length_filterMap_le (buildRow st q.relevance_threshold) faissOut
      · rw [hresults]
        exact hsorted.sublist (buildRow_scores_sublist st q.relevance_threshold faissOut)
      · rw [hresults]
        intro r hr
        obtain ⟨p, hp, hbr⟩ := List.mem_filterMap.mp hr
        obtain ⟨hs, ht⟩ := buildRow_some hbr
        rw [hs]
        exact ht
      · intro h0
        rw [hnt] at h0
        exact absurd h0 hz

/-- Witness for C2 at a concrete one-vector index and one FAISS answer row. -/
theorem search_spec_witness :
    (VectorService.search sampleState [1, 0] sampleQuery [(1, 0)] 7).results.length ≤
      min 5 sampleState.ntotal :=
  (search_spec sampleState [1, 0] sampleQuery [(1, 0)] 7 (by decide) (by simp)).1

/-! ### Claim C6: add_embeddings skipping and result -/

/-- C6: chunks lacking an embedding or carrying a zero-norm vector are
skipped individually without failing the call — on success exactly the
surviving (chunk, vector) pairs are appended to the store, in order — and the
call returns false exactly when zero vectors were added (so it returns true
whenever at least one chunk's vector is added). -/
theorem add_embeddings_spec (st : VectorState) (chunks : List DocumentChunk)
    (embeddings : List (String × List ℚ)) (document_name : String) :
    ((add_embeddings st chunks embeddings document_name).2 = false ↔
      (add_embeddings st chunks embeddings document_name).1.ntotal = st.ntotal) ∧
    ((add_embeddings st chunks embeddings document_name).2 = true →
      ∃ dim vecs0,
        (add_embeddings st chunks embeddings document_name).1.index =
          some (dim, vecs0 ++ (validEntries chunks embeddings).map Prod.snd) ∧
        vecs0.length = st.ntotal ∧ validEntries chunks embeddings ≠ []) := by
  by_cases hempty : chunks = [] ∨ embeddings = []
  · simp [add_embeddings, hempty]
  · cases hv : validEntries chunks embeddings with
    | nil => simp [add_embeddings, hempty, hv]
    | cons p rest =>
      obtain ⟨c0, v0⟩ := p
      by_cases hall : (rest.all fun p => decide (p.2.length = v0.length)) = true
      · have hrefl : decide (v0.length = v0.length) = true := by simp
        cases hidx : st.index with
        | none =>
          constructor
          · simp [add_embeddings, hempty, hv, hall, hrefl, hidx,
              add_embeddings.addToIndex, VectorState.ntotal]
          · intro htrue
            refine ⟨v0.length, [], ?_, ?_, ?_⟩
            · simp [add_embeddings, hempty, hv, hall, hrefl, hidx,
                add_embeddings.addToIndex]
            · simp [VectorState.ntotal, hidx]
            · simp [hv]
        | some dv =>
          obtain ⟨dim, vecs⟩ := dv
          by_cases hd : v0.length = dim
          · rw [hd] at hall hrefl
            constructor
            · simp [add_embeddings, hempty, hv, hall, hrefl, hidx, hd,
                add_embeddings.addToIndex, VectorState.ntotal]
            · intro htrue
              refine ⟨dim, vecs, ?_, ?_, ?_⟩
              · simp [add_embeddings, hempty, hv, hall, hrefl, hidx, hd,
                  add_embeddings.addToIndex]
              · simp [VectorState.ntotal, hidx]
              · simp [hv]
          · simp [add_embeddings, hempty, hv, hall, hidx, hd]
      · simp [add_embeddings, hempty, hv, hall]

/-- Witness for C6: the zero-norm chunk is skipped, the call still returns
true, and exactly the surviving vector is appended. -/
theorem add_embeddings_spec_witness :
    (add_embeddings emptyVectorState [sampleZeroChunk, sampleGoodChunk]
      sampleEmbeddings ("doc.pdf")).2 = true ∧
    ∃ dim vecs0,
      (add_embeddings emptyVectorState [sampleZeroChunk, sampleGoodChunk]
        sampleEmbeddings ("doc.pdf")).1.index =
        some (dim, vecs0 ++ (validEntries [sampleZeroChunk, sampleGoodChunk]
          sampleEmbeddings).map Prod.snd) ∧
      vecs0.length = emptyVectorState.ntotal ∧
      validEntries [sampleZeroChunk, sampleGoodChunk] sampleEmbeddings ≠ [] := by
  have hval : validEntries [sampleZeroChunk, sampleGoodChunk] sampleEmbeddings
      = [(sampleGoodChunk, [3, 4])] := by
    norm_num [validEntries, sampleZeroChunk, sampleGoodChunk, sampleChunk,
      sampleEmbeddings, List.lookup, normSq, List.filterMap_cons,
      (show (("a" : String) == "a") = true from by decide),
      (show (("b" : String) == "a") = false from by decide),
      (show (("b" : String) == "b") = true from by decide)]
  have htrue : (add_embeddings emptyVectorState [sampleZeroChunk, sampleGoodChunk]
      sampleEmbeddings ("doc.pdf")).2 = true := by
    simp [add_embeddings, hval, emptyVectorState,
      (show sampleEmbeddings ≠ [] from by decide)]
  exact ⟨htrue,
    (add_embeddings_spec emptyVectorState [sampleZeroChunk, sampleGoodChunk]
      sampleEmbeddings ("doc.pdf")).2 htrue⟩

/-! ### Helper lemmas about the chunker -/

theorem rfindTerm_some {s : List Char} {start : ℕ} :
    ∀ {e sb : ℕ}, rfindTerm s start e = some sb →
      start ≤ sb ∧ sb < e ∧ termAt s sb = true ∧
      ∀ j, sb < j → j < e → termAt s j = false := by
  intro e
  induction e with
  | zero => intro sb h; simp [rfindTerm] at h
  | succ e ih =>
    intro sb h
    rw [rfindTerm] at h
    by_cases hc : start ≤ e ∧ termAt s e = true
    · rw [if_pos hc] at h
      cases h
      exact ⟨hc.1, Nat.lt_succ_self e, hc.2, fun j hj1 hj2 => by omega⟩
    · rw [if_neg hc] at h
      obtain ⟨h1, h2, h3, h4⟩ := ih h
      refine ⟨h1, Nat.lt_succ_of_lt h2, h3, fun j hj1 hj2 => ?_⟩
      by_cases hje : j = e
      · subst hje
        have hsj : start ≤ j := le_trans h1 (le_of_lt hj1)
        cases ht : termAt s j with
        | false => rfl
        | true => exact absurd ⟨hsj, ht⟩ hc
      · exact h4 j hj1 (by omega)

theorem rfindTerm_none {s : List Char} {start : ℕ} :
    ∀ {e : ℕ}, rfindTerm s start e = none →
      ∀ j, start ≤ j → j < e → termAt s j = false := by
  intro e
  induction e with
  | zero => intro h j hj1 hj2; omega
  | succ e ih =>
    intro h j hj1 hj2
    rw [rfindTerm] at h
    by_cases hc : start ≤ e ∧ termAt s e = true
    · rw [if_pos hc] at h
      exact Option.noConfusion h
    · rw [if_neg hc] at h
      by_cases hje : j = e
      · subst hje
        cases ht : termAt s j with
        | false => rfl
        | true => exact absurd ⟨hj1, ht⟩ hc
      · exact ih h j hj1 (by omega)

theorem windowEnd_eq_of_some {s : List Char} {start cs sb : ℕ}
    (h : min (start + cs) s.length < s.length)
    (hr : rfindTerm s start (min (start + cs) s.length) = some sb) :
    windowEnd s start cs =
      if start + cs / 2 < sb then sb + 1 else min (start + cs) s.length := by
  simp only [windowEnd, if_pos h, hr]

theorem windowEnd_eq_of_none {s : List Char} {start cs : ℕ}
    (h : min (start + cs) s.length < s.length)
    (hr : rfindTerm s start (min (start + cs) s.length) = none) :
    windowEnd s start cs = min (start + cs) s.length := by
  simp only [windowEnd, if_pos h, hr]

theorem windowEnd_eq_of_end {s : List Char} {start cs : ℕ}
    (h : ¬ min (start + cs) s.length < s.length) :
    windowEnd s start cs = min (start + cs) s.length := by
  simp only [windowEnd, if_neg h]

theorem windowEnd_le (s : List Char) (start cs : ℕ) :
    windowEnd s start cs ≤ s.length := by
  by_cases h : min (start + cs) s.length < s.length
  · cases hr : rfindTerm s start (min (start + cs) s.length) with
    | some sb =>
      obtain ⟨-, h2, -, -⟩ := rfindTerm_some hr
      rw [windowEnd_eq_of_some h hr]
      by_cases hc : start + cs / 2 < sb
      · rw [if_pos hc]
        omega
      · rw [if_neg hc]
        exact min_le_right _ _
    | none =>
      rw [windowEnd_eq_of_none h hr]
      exact min_le_right _ _
  · rw [windowEnd_eq_of_end h]
    exact min_le_right _ _

theorem lt_windowEnd {s : List Char} {start cs : ℕ} (hs : start < s.length)
    (hcs : 0 < cs) : start < windowEnd s start cs := by
  have hmin : start < min (start + cs) s.length := by omega
  by_cases h : min (start + cs) s.length < s.length
  · cases hr : rfindTerm s start (min (start + cs) s.length) with
    | some sb =>
      rw [windowEnd_eq_of_some h hr]
      by_cases hc : start + cs / 2 < sb
      · rw [if_pos hc]
        omega
      · rw [if_neg hc]
        exact hmin
    | none =>
      rw [windowEnd_eq_of_none h hr]
      exact hmin
  · rw [windowEnd_eq_of_end h]
    exact hmin

theorem windowEnd_no_term {s : List Char} (start cs : ℕ)
    (hterm : ∀ c ∈ s, isTermChar c = false) :
    windowEnd s start cs = min (start + cs) s.length := by
  by_cases h : min (start + cs) s.length < s.length
  · cases hr : rfindTerm s start (min (start + cs) s.length) with
    | some sb =>
      obtain ⟨-, -, h3, -⟩ := rfindTerm_some hr
      exfalso
      unfold termAt at h3
      cases hg : s.get? sb with
      | some c =>
        rw [hg] at h3
        exact absurd h3 (by simp [hterm c (List.get?_mem hg)])
      | none =>
        rw [hg] at h3
        exact Bool.noConfusion h3
    | none => exact windowEnd_eq_of_none h hr
  · exact windowEnd_eq_of_end h

theorem stripChars_eq_self {l : List Char} (h : ∀ c ∈ l, isWs c = false) :
    stripChars l = l := by
  unfold stripChars
  have h1 : l.dropWhile isWs = l := by
    cases l with
    | nil => rfl
    | cons a t =>
      rw [List.dropWhile_cons, if_neg (by simp [h a (List.mem_cons_self a t)])]
  rw [h1]
  have h2 : l.reverse.dropWhile isWs = l.reverse := by
    cases hrev : l.reverse with
    | nil => rfl
    | cons a t =>
      have ha : a ∈ l := by
        rw [← List.mem_reverse, hrev]
        exact List.mem_cons_self a t
      rw [List.dropWhile_cons, if_neg (by simp [h a ha])]
  rw [h2, List.reverse_reverse]

theorem windowContent_mem {s : List Char} {start cs : ℕ} {c : Char}
    (h : c ∈ windowContent s start cs) : c ∈ s := by
  unfold windowContent at h
  have h1 := mem_of_mem_stripChars h
  exact List.mem_of_mem_drop (List.mem_of_mem_take h1)

theorem windowContent_ne_nil {s : List Char} {start cs : ℕ}
    (hs : start < s.length) (hcs : 0 < cs)
    (hws : ∀ c ∈ s, isWs c = false) :
    windowContent s start cs ≠ [] := by
  unfold windowContent
  have hslice : ∀ c ∈ (s.drop start).take (windowEnd s start cs - start), isWs c = false :=
    fun c hc => hws c (List.mem_of_mem_drop (List.mem_of_mem_take hc))
  rw [stripChars_eq_self hslice]
  have hlt := lt_windowEnd hs hcs
  have hle := windowEnd_le s start cs
  intro hnil
  have := congrArg List.length hnil
  simp only [List.length_take, List.length_drop, List.length_nil] at this
  omega

theorem chunkAcc_mem {s : List Char} {docId : String} {cs start idx : ℕ}
    {acc : List DocumentChunk} {c : DocumentChunk}
    (h : c ∈ chunkAcc s docId cs start idx acc) :
    c ∈ acc ∨ (c.start_char = start ∧ c.end_char = windowEnd s start cs) := by
  unfold chunkAcc at h
  split at h
  · exact Or.inl h
  · rcases List.mem_append.mp h with h | h
    · exact Or.inl h
    · rcases List.mem_singleton.mp h with rfl
      exact Or.inr ⟨rfl, rfl⟩

theorem nextStart_gt {s : List Char} {docId : String} {cs ov start idx : ℕ}
    {acc : List DocumentChunk} (hs : start < s.length) (hcs : 0 < cs)
    (hov : ov < cs) : start < nextStart s docId cs ov start idx acc := by
  unfold nextStart
  have he := lt_windowEnd hs hcs
  have h1 : start < max (start + cs - ov) (windowEnd s start cs - ov) := by omega
  cases hl : (chunkAcc s docId cs start idx acc).getLast? with
  | none => simpa using h1
  | some c =>
    simp only []
    split
    · exact he
    · exact h1

theorem chunkStep_inr {s : List Char} {docId : String} {cs ov start idx : ℕ}
    {acc : List DocumentChunk} {start2 idx2 : ℕ} {acc2 : List DocumentChunk}
    (hcs : 0 < cs) (hov : ov < cs)
    (h : chunkStep s docId cs ov start idx acc = .inr (start2, idx2, acc2)) :
    start < start2 ∧ start < s.length ∧ windowEnd s start cs < s.length ∧
    start2 = nextStart s docId cs ov start idx acc ∧
    acc2 = chunkAcc s docId cs start idx acc := by
  unfold chunkStep at h
  by_cases hs : start < s.length
  · rw [if_pos hs] at h
    by_cases hend : s.length ≤ windowEnd s start cs
    · rw [if_pos hend] at h
      exact Sum.noConfusion h
    · rw [if_neg hend] at h
      cases h
      exact ⟨nextStart_gt hs hcs hov, hs, not_le.mp hend, rfl, rfl⟩
  · rw [if_neg hs] at h
    exact Sum.noConfusion h

theorem chunkStep_inl {s : List Char} {docId : String} {cs ov start idx : ℕ}
    {acc done : List DocumentChunk}
    (h : chunkStep s docId cs ov start idx acc = .inl done) :
    (¬ start < s.length ∧ done = acc) ∨
    (start < s.length ∧ s.length ≤ windowEnd s start cs ∧
      done = chunkAcc s docId cs start idx acc) := by
  unfold chunkStep at h
  by_cases hs : start < s.length
  · rw [if_pos hs] at h
    by_cases hend : s.length ≤ windowEnd s start cs
    · rw [if_pos hend] at h
      cases h
      exact Or.inr ⟨hs, hend, rfl⟩
    · rw [if_neg hend] at h
      exact Sum.noConfusion h
  · rw [if_neg hs] at h
    cases h
    exact Or.inl ⟨hs, rfl⟩

theorem chunkLoop_fuel {s : List Char} {docId : String} {cs ov : ℕ}
    (hcs : 0 < cs) (hov : ov < cs) :
    ∀ (f1 f2 start idx : ℕ) (acc : List DocumentChunk),
      s.length - start < f1 → s.length - start < f2 →
      chunkLoop s docId cs ov f1 start idx acc =
        chunkLoop s docId cs ov f2 start idx acc := by
  intro f1
  induction f1 with
  | zero => intro f2 start idx acc h1 h2; omega
  | succ f ih =>
    intro f2 start idx acc h1 h2
    cases f2 with
    | zero => omega
    | succ g =>
      rw [chunkLoop, chunkLoop]
      cases hstep : chunkStep s docId cs ov start idx acc with
      | inl done => simp only [hstep]
      | inr t =>
        obtain ⟨start2, idx2, acc2⟩ := t
        simp only [hstep]
        obtain ⟨hgt, hs, -, -, -⟩ := chunkStep_inr hcs hov hstep
        exact ih g start2 idx2 acc2 (by omega) (by omega)

theorem chunkLoop_bounds {s : List Char} {docId : String} {cs ov : ℕ}
    (hcs : 0 < cs) (hov : ov < cs) :
    ∀ (fuel start idx : ℕ) (acc : List DocumentChunk),
      (∀ c ∈ acc, c.start_char < c.end_char ∧ c.end_char ≤ s.length) →
      ∀ c ∈ chunkLoop s docId cs ov fuel start idx acc,
        c.start_char < c.end_char ∧ c.end_char ≤ s.length := by
  intro fuel
  induction fuel with
  | zero =>
    intro start idx acc hacc
    simpa [chunkLoop] using hacc
  | succ f ih =>
    intro start idx acc hacc c hc
    rw [chunkLoop] at hc
    cases hstep : chunkStep s docId cs ov start idx acc with
    | inl done =>
      rw [hstep] at hc
      rcases chunkStep_inl hstep with ⟨hs, rfl⟩ | ⟨hs, hend, rfl⟩
      · exact hacc c hc
      · rcases chunkAcc_mem hc with hmem | ⟨h1, h2⟩
        · exact hacc c hmem
        · constructor
          · rw [h1, h2]
            exact lt_windowEnd hs hcs
          · rw [h2]
            exact windowEnd_le s start cs
    | inr t =>
      obtain ⟨start2, idx2, acc2⟩ := t
      rw [hstep] at hc
      obtain ⟨-, hs, -, -, hacc2⟩ := chunkStep_inr hcs hov hstep
      refine ih start2 idx2 acc2 (fun d hd => ?_) c hc
      rw [hacc2] at hd
      rcases chunkAcc_mem hd with hmem | ⟨h1, h2⟩
      · exact hacc d hmem
      · constructor
        · rw [h1, h2]
          exact lt_windowEnd hs hcs
        · rw [h2]
          exact windowEnd_le s start cs

/-! ### Claim C3: chunker termination and offset bounds -/

/-- C3: for every valid chunk_size/overlap pair, create_text_chunks
terminates — the loop is fuel-stable: every fuel beyond the cleaned text's
length yields the same (finished) result — and every returned chunk satisfies
start_char < end_char ≤ len(cleaned text); 0 ≤ start_char holds by the ℕ
type of the offset. Offsets refer to the cleaned text. -/
theorem create_text_chunks_bounds (text : List Char) (docId : String)
    (cs ov : ℕ) (hcs : 0 < cs) (hov : ov < cs) :
    (∀ fuel, (clean_text text).length < fuel →
      chunkLoop (clean_text text) docId cs ov fuel 0 0 [] =
        chunkLoop (clean_text text) docId cs ov
          ((clean_text text).length + 1) 0 0 []) ∧
    ∀ c ∈ create_text_chunks text docId cs ov,
      c.start_char < c.end_char ∧ c.end_char ≤ (clean_text text).length := by
  constructor
  · intro fuel hfuel
    exact chunkLoop_fuel hcs hov fuel ((clean_text text).length + 1) 0 0 []
      (by omega) (by omega)
  · intro c hc
    unfold create_text_chunks at hc
    split at hc
    · simp at hc
    · exact chunkLoop_bounds hcs hov _ 0 0 [] (by simp) c hc

/-- Witness for C3 at the concrete text "ab" with chunk_size 2, overlap 1. -/
theorem create_text_chunks_bounds_witness :
    (⟨"", "d", 0, ("ab").toList, 0, 2, none, 2, 2⟩ : DocumentChunk).start_char <
      (⟨"", "d", 0, ("ab").toList, 0, 2, none, 2, 2⟩ : DocumentChunk).end_char ∧
    (⟨"", "d", 0, ("ab").toList, 0, 2, none, 2, 2⟩ : DocumentChunk).end_char ≤
      (clean_text (("ab").toList)).length :=
  (create_text_chunks_bounds (("ab").toList) ("d") 2 1 (by decide) (by decide)).2
    ⟨"", "d", 0, ("ab").toList, 0, 2, none, 2, 2⟩ (by decide)

/-! ### Claim C8: sentence-boundary cut rule -/

/-- C8 counterexample: in the window [0, 10) of "abcde.ghijklmnop" the
nearest terminator searching backward sits at index 5, exactly the midpoint
0 + 10 / 2 — the claim says it is accepted and the chunk cut at 6, but the
code cuts at the hard boundary 10 (the first emitted chunk ends at 10). -/
theorem windowEnd_sentence_rule_counterexample :
    rfindTerm (("abcde.ghijklmnop").toList) 0
      (min (0 + 10) (("abcde.ghijklmnop").toList).length) = some 5 ∧
    0 + 10 / 2 ≤ 5 ∧
    0 + 10 < (("abcde.ghijklmnop").toList).length ∧
    windowEnd (("abcde.ghijklmnop").toList) 0 10 ≠ 5 + 1 ∧
    ((create_text_chunks (("abcde.ghijklmnop").toList) ("d") 10 0).map
      DocumentChunk.end_char).head? = some 10 := by decide

/-- C8 (amended): for a window whose hard end start + chunk_size lies
strictly inside the text and holds a sentence terminator, the searched-for
cut candidate is the largest terminator position in [start, start +
chunk_size); the chunk is cut just after it exactly when it lies strictly
after the midpoint start + chunk_size / 2, and at the hard boundary start +
chunk_size otherwise — in particular a terminator exactly at the midpoint is
rejected, not accepted. -/
theorem windowEnd_sentence_rule (s : List Char) (start cs sb : ℕ)
    (hin : start + cs < s.length)
    (hsb : rfindTerm s start (min (start + cs) s.length) = some sb) :
    start ≤ sb ∧ sb < start + cs ∧ termAt s sb = true ∧
    (∀ j, sb < j → j < start + cs → termAt s j = false) ∧
    (start + cs / 2 < sb → windowEnd s start cs = sb + 1) ∧
    (sb ≤ start + cs / 2 → windowEnd s start cs = start + cs) := by
  have hmin : min (start + cs) s.length = start + cs := min_eq_left (le_of_lt hin)
  have hlt : min (start + cs) s.length < s.length := by omega
  obtain ⟨h1, h2, h3, h4⟩ := rfindTerm_some hsb
  rw [hmin] at h2 h4
  refine ⟨h1, h2, h3, h4, ?_, ?_⟩
  · intro hc
    rw [windowEnd_eq_of_some hlt hsb, if_pos hc]
  · intro hc
    rw [windowEnd_eq_of_some hlt hsb, if_neg (by omega), hmin]

/-- Witness for C8 at a window of "abcdef.xxxxxxxxxxx" whose terminator at 6
lies strictly past the midpoint 5: the chunk is cut at 7. -/
theorem windowEnd_sentence_rule_witness :
    windowEnd (("abcdef.xxxxxxxxxxx").toList) 0 10 = 6 + 1 :=
  (windowEnd_sentence_rule (("abcdef.xxxxxxxxxxx").toList) 0 10 6 (by decide)
    (by decide)).2.2.2.2.1 (by decide)

theorem mem_dropWhile_of_mem {α : Type} {p : α → Bool} {c : α} :
    ∀ {l : List α}, c ∈ l → p c = false → c ∈ l.dropWhile p := by
  intro l
  induction l with
  | nil => intro hc; cases hc
  | cons a t ih =>
    intro hc hp
    rw [List.dropWhile_cons]
    by_cases hpa : p a
    · rw [if_pos hpa]
      rcases List.mem_cons.mp hc with rfl | hct
      · rw [hp] at hpa
        exact Bool.noConfusion hpa
      · exact ih hct hp
    · rw [if_neg hpa]
      exact hc

theorem all_ws_of_stripChars_eq_nil {l : List Char} (h : stripChars l = []) :
    ∀ c ∈ l, isWs c = true := by
  intro c hc
  by_contra hne
  have hp : isWs c = false := by
    cases hh : isWs c
    · rfl
    · exact absurd hh hne
  have h1 : c ∈ l.dropWhile isWs := mem_dropWhile_of_mem hc hp
  have h2 : c ∈ (l.dropWhile isWs).reverse := List.mem_reverse.mpr h1
  have h3 : c ∈ ((l.dropWhile isWs).reverse).dropWhile isWs :=
    mem_dropWhile_of_mem h2 hp
  unfold stripChars at h
  rw [List.reverse_eq_nil_iff] at h
  rw [h] at h3
  cases h3

theorem collapseWsAux_all_ws {l : List Char} (h : ∀ c ∈ l, isWs c = true) :
    collapseWsAux true l = [] := by
  induction l with
  | nil => rfl
  | cons a t ih =>
    have ha := h a (List.mem_cons_self a t)
    simp only [collapseWsAux, ha, if_true]
    exact ih (fun c hc => h c (List.mem_cons_of_mem a hc))

theorem clean_text_all_ws {l : List Char} (h : ∀ c ∈ l, isWs c = true) :
    clean_text l = [] := by
  cases l with
  | nil => rfl
  | cons a t =>
    have hws : collapseWs (a :: t) = [' '] := by
      have ha := h a (List.mem_cons_self a t)
      simp only [collapseWs, collapseWsAux, ha, if_true, Bool.false_eq_true,
        if_false]
      rw [collapseWsAux_all_ws (fun c hc => h c (List.mem_cons_of_mem a hc))]
    unfold clean_text
    rw [hws]
    rfl

theorem chunkLoop_cover {s : List Char} {docId : String} {cs ov : ℕ}
    (hcs : 0 < cs) (hov : ov < cs)
    (hterm : ∀ c ∈ s, isTermChar c = false)
    (hws : ∀ c ∈ s, isWs c = false) :
    ∀ (fuel start idx : ℕ) (acc : List DocumentChunk),
      s.length - start < fuel →
      (∀ i, i < start → ∃ c ∈ acc, c.start_char ≤ i ∧ i < c.end_char) →
      ∀ i, i < s.length →
        ∃ c ∈ chunkLoop s docId cs ov fuel start idx acc,
          c.start_char ≤ i ∧ i < c.end_char := by
  intro fuel
  induction fuel with
  | zero => intro start idx acc hf hinv i hi; omega
  | succ f ih =>
    intro start idx acc hf hinv i hi
    by_cases hs : start < s.length
    · have hwe : windowEnd s start cs = min (start + cs) s.length :=
        windowEnd_no_term start cs hterm
      have hcontent := windowContent_ne_nil hs hcs hws
      have hacc2 : chunkAcc s docId cs start idx acc =
          acc ++ [⟨"", docId, idx, windowContent s start cs, start,
                   windowEnd s start cs, none,
                   (windowContent s start cs).length, s.length⟩] := by
        unfold chunkAcc
        rw [if_neg hcontent]
      by_cases hend : s.length ≤ windowEnd s start cs
      · have hstep : chunkStep s docId cs ov start idx acc =
            .inl (chunkAcc s docId cs start idx acc) := by
          unfold chunkStep
          rw [if_pos hs, if_pos hend]
        rw [chunkLoop, hstep]
        by_cases hista : i < start
        · obtain ⟨c, hc, hcov⟩ := hinv i hista
          exact ⟨c, hacc2 ▸ List.mem_append_left _ hc, hcov⟩
        · refine ⟨_, hacc2 ▸ List.mem_append_right _ (List.mem_singleton.mpr rfl),
            ?_, ?_⟩
          · exact le_of_not_lt hista
          · exact lt_of_lt_of_le hi hend
      · have hstep : chunkStep s docId cs ov start idx acc =
            .inr (nextStart s docId cs ov start idx acc, nextIdx s cs start idx,
              chunkAcc s docId cs start idx acc) := by
          unfold chunkStep
          rw [if_pos hs, if_neg hend]
        have hwelen : windowEnd s start cs < s.length := not_le.mp hend
        have hcslen : start + cs < s.length := by
          by_contra hge
          rw [hwe, min_eq_right (by omega)] at hwelen
          omega
        have hmin : windowEnd s start cs = start + cs := by
          rw [hwe, min_eq_left (by omega)]
        have hns : nextStart s docId cs ov start idx acc = start + cs - ov := by
          unfold nextStart
          rw [hacc2, List.getLast?_concat]
          simp only [hmin]
          rw [if_neg (by omega)]
          omega
        rw [chunkLoop, hstep]
        refine ih (nextStart s docId cs ov start idx acc) (nextIdx s cs start idx)
          (chunkAcc s docId cs start idx acc) (by rw [hns]; omega)
          (fun j hj => ?_) i hi
        rw [hns] at hj
        by_cases hjs : j < start
        · obtain ⟨c, hc, hcov⟩ := hinv j hjs
          exact ⟨c, hacc2 ▸ List.mem_append_left _ hc, hcov⟩
        · refine ⟨_, hacc2 ▸ List.mem_append_right _ (List.mem_singleton.mpr rfl),
            le_of_not_lt hjs, ?_⟩
          simp only [hmin]
          omega
    · have hstep : chunkStep s docId cs ov start idx acc = .inl acc := by
        unfold chunkStep
        rw [if_neg hs]
      rw [chunkLoop, hstep]
      exact hinv i (by omega)

/-! ### Claim C1: chunk span coverage -/

/-- C1 counterexample: with text "a b" and the valid pair chunk_size 1,
overlap 0, position 1 of the cleaned text (the space) lies in no returned
chunk's span — the whitespace-only window [1, 2) strips to empty and is
skipped, so the spans have a gap. -/
theorem create_text_chunks_cover_counterexample :
    (0 : ℕ) < 1 ∧ (0 : ℕ) ≤ 0 ∧
    1 < (clean_text (("a b").toList)).length ∧
    ¬ ∃ c ∈ create_text_chunks (("a b").toList) ("d") 1 0,
      c.start_char ≤ 1 ∧ 1 < c.end_char := by decide

/-- C1 (amended): the chunk spans cover every position of the cleaned text
provided the cleaned text contains no sentence terminator and no whitespace
character. Without these assumptions the claim fails: a whitespace-only
window strips to empty and is skipped (leaving its span uncovered, see the
counterexample), and a sentence-boundary cut can leave a gap before the next
window start when chunk_size - overlap exceeds the cut window's length. -/
theorem create_text_chunks_cover (text : List Char) (docId : String)
    (cs ov : ℕ) (hcs : 0 < cs) (hov : ov < cs)
    (hterm : ∀ c ∈ clean_text text, isTermChar c = false)
    (hws : ∀ c ∈ clean_text text, isWs c = false) :
    ∀ i, i < (clean_text text).length →
      ∃ c ∈ create_text_chunks text docId cs ov,
        c.start_char ≤ i ∧ i < c.end_char := by
  intro i hi
  unfold create_text_chunks
  split
  · next hearly =>
    exfalso
    rcases hearly with he | he
    · rw [he] at hi
      have hnil : clean_text ([] : List Char) = [] := rfl
      rw [hnil] at hi
      exact absurd hi (by simp)
    · rw [clean_text_all_ws (all_ws_of_stripChars_eq_nil he)] at hi
      exact absurd hi (by simp)
  · exact chunkLoop_cover hcs hov hterm hws _ 0 0 [] (by omega)
      (fun j hj => absurd hj (Nat.not_lt_zero j)) i hi

/-- Witness for the amended C1: text "ab" with chunk_size 1, overlap 0 —
position 1 is covered. -/
theorem create_text_chunks_cover_witness :
    ∃ c ∈ create_text_chunks (("ab").toList) ("d") 1 0,
      c.start_char ≤ 1 ∧ 1 < c.end_char :=
  create_text_chunks_cover (("ab").toList) ("d") 1 0 (by decide) (by decide)
    (by decide) (by decide) 1 (by decide)

end RagChatbot
